import Mathlib

/-!
# AshPaper: verification of the instruction set, parser and interpreters

Shallow embedding of the AshPaper poetry-language implementation:

* the shared data model (`Register`, `InsType`, `Instruction`, `Memory`)
  from `src/ashpaper/src/parser.rs` / `src/src/parser` re-exports;
* the interpreter of `src/src/program.rs` (`Program::execute`) as the step
  function `execStep` and the fuelled loop `execRun`;
* the interpreter of `src/ashpaper/src/program.rs` (`execute`) as
  `ashExecStep`; the two differ only in the `ConditionalPush` comparison;
* the runtime helper `put_char` of `src/src/rt.rs`;
* the runtime effect of the IR that `JIT::translate_push`
  (`src/src/jit.rs`) emits for `Push`;
* the parser skeleton of `src/ashpaper/src/parser.rs` (`parse`), its
  syllable heuristic `approximate_syllables`, and `count_syllables`.

Rust `i64` registers are modelled as `Int`; the arithmetic instructions
wrap through `wrap64` exactly where the release-mode Rust semantics wrap
(`*=`, `+=`, unary negation).  The Rust `Vec` stack (top = last element)
is modelled as a `List Int` with the top at the head.  Strings are
modelled as `List Char`.
-/

namespace AshPaper

/-- `Register` from `src/ashpaper/src/parser.rs`. -/
inductive Register where
  | register0
  | register1
deriving DecidableEq, Repr

/-- `InsType` from `src/ashpaper/src/parser.rs`.  Syllable counts are
`usize` in the source and are modelled as `Nat`. -/
inductive InsType where
  | conditionalPush (prev_syllables cur_syllables : Nat)
  | conditionalGoto (syllables : Nat)
  | negate
  | multiply
  | add
  | printChar
  | printValue
  | pop
  | push
  | goto
  | store (syllables : Nat)
  | noop
deriving DecidableEq, Repr

/-- `Instruction` from `src/ashpaper/src/parser.rs`: a kind, the register
the line nominates, and the stored line text. -/
structure Instruction where
  instruction : InsType
  register : Register
  line : List Char
deriving DecidableEq, Repr

/-- Two's-complement wrap into the signed 64-bit range, used where the
Rust source performs wrapping `i64` arithmetic. -/
def wrap64 (z : Int) : Int := (z + 2 ^ 63) % 2 ^ 64 - 2 ^ 63

/-- `Memory` from `src/src/program.rs` (identical in
`src/ashpaper/src/program.rs`): two registers and a stack.  The Rust
`Vec` keeps its top at the end; the model keeps the top at the head. -/
structure Memory where
  register0 : Int
  register1 : Int
  stack : List Int
deriving DecidableEq, Repr

namespace Memory

/-- `Memory::new`. -/
def new : Memory := { register0 := 0, register1 := 0, stack := [] }

/-- `Memory::store_syllables`. -/
def store_syllables (m : Memory) (register : Register) (syllables : Int) :
    Memory :=
  match register with
  | .register0 => { m with register0 := syllables }
  | .register1 => { m with register1 := syllables }

/-- `Memory::push_to_stack`. -/
def push_to_stack (m : Memory) (val : Int) : Memory :=
  { m with stack := val :: m.stack }

/-- `Memory::push`. -/
def push (m : Memory) (register : Register) : Memory :=
  match register with
  | .register0 => { m with stack := m.register0 :: m.stack }
  | .register1 => { m with stack := m.register1 :: m.stack }

/-- `Memory::pop`: pop into the register if the stack is non-empty,
otherwise do nothing. -/
def pop (m : Memory) (register : Register) : Memory :=
  match m.stack with
  | [] => m
  | val :: rest =>
    match register with
    | .register0 => { m with register0 := val, stack := rest }
    | .register1 => { m with register1 := val, stack := rest }

/-- `Memory::multiply` (wrapping `i64` product). -/
def multiply (m : Memory) (register : Register) : Memory :=
  match register with
  | .register0 => { m with register0 := wrap64 (m.register0 * m.register1) }
  | .register1 => { m with register1 := wrap64 (m.register1 * m.register0) }

/-- `Memory::add` (wrapping `i64` sum). -/
def add (m : Memory) (register : Register) : Memory :=
  match register with
  | .register0 => { m with register0 := wrap64 (m.register0 + m.register1) }
  | .register1 => { m with register1 := wrap64 (m.register1 + m.register0) }

/-- `Memory::get_active`. -/
def get_active (m : Memory) (register : Register) : Int :=
  match register with
  | .register0 => m.register0
  | .register1 => m.register1

/-- `Memory::get_inactive`. -/
def get_inactive (m : Memory) (register : Register) : Int :=
  match register with
  | .register0 => m.register1
  | .register1 => m.register0

/-- `Memory::negate` (wrapping `i64` negation). -/
def negate (m : Memory) (register : Register) : Memory :=
  match register with
  | .register0 => { m with register0 := wrap64 (-m.register0) }
  | .register1 => { m with register1 := wrap64 (-m.register1) }

end Memory

/-- `put_char` from `src/src/rt.rs`: `(c.abs() % u8::MAX) as u8`, the
code point of the emitted character.  `u8::MAX` is `255`. -/
def put_char (c : Int) : Nat := c.natAbs % 255

/-- The execution state threaded through the interpreter loops of both
`Program::execute` (`src/src/program.rs`) and `execute`
(`src/ashpaper/src/program.rs`): the memory, the accumulated output and
the instruction pointer. -/
structure ExecState where
  mem : Memory
  output : List Char
  instruction_pointer : Nat
deriving DecidableEq, Repr

/-- One iteration of the interpreter loop of `Program::execute` in
`src/src/program.rs`, executing instruction `ins` with `n` the program
length.  `Goto` and a taken `ConditionalGoto` set the instruction
pointer to the target (the `continue 'outer` paths); every other case
increments it. -/
def execStep (n : Nat) (ins : Instruction) (st : ExecState) : ExecState :=
  match ins.instruction with
  | .conditionalGoto syllables =>
    if st.mem.get_active ins.register > (syllables : Int) then
      { st with
        instruction_pointer := (st.mem.get_inactive ins.register).natAbs % n }
    else
      { st with instruction_pointer := st.instruction_pointer + 1 }
  | .negate =>
    { st with mem := st.mem.negate ins.register,
              instruction_pointer := st.instruction_pointer + 1 }
  | .multiply =>
    { st with mem := st.mem.multiply ins.register,
              instruction_pointer := st.instruction_pointer + 1 }
  | .add =>
    { st with mem := st.mem.add ins.register,
              instruction_pointer := st.instruction_pointer + 1 }
  | .printChar =>
    { st with
      output := st.output ++ [Char.ofNat (put_char (st.mem.get_active ins.register))],
      instruction_pointer := st.instruction_pointer + 1 }
  | .printValue =>
    { st with
      output := st.output ++ (toString (st.mem.get_active ins.register)).data,
      instruction_pointer := st.instruction_pointer + 1 }
  | .pop =>
    { st with mem := st.mem.pop ins.register,
              instruction_pointer := st.instruction_pointer + 1 }
  | .push =>
    { st with mem := st.mem.push ins.register,
              instruction_pointer := st.instruction_pointer + 1 }
  | .store syllables =>
    { st with mem := st.mem.store_syllables ins.register (syllables : Int),
              instruction_pointer := st.instruction_pointer + 1 }
  | .conditionalPush prev_syllables cur_syllables =>
    if st.mem.get_active ins.register < st.mem.get_inactive ins.register then
      { st with mem := st.mem.push_to_stack (prev_syllables : Int),
                instruction_pointer := st.instruction_pointer + 1 }
    else
      { st with mem := st.mem.push_to_stack (cur_syllables : Int),
                instruction_pointer := st.instruction_pointer + 1 }
  | .goto =>
    { st with
      instruction_pointer := (st.mem.get_active ins.register).natAbs % n }
  | .noop =>
    { st with instruction_pointer := st.instruction_pointer + 1 }

/-- One iteration of the interpreter loop of `execute` in
`src/ashpaper/src/program.rs`.  Identical to `execStep` except for the
`ConditionalPush` guard, which the source writes as
`mem.get_active(Register::Register0) < mem.get_inactive(Register::Register1)`
instead of using the instruction's own register. -/
def ashExecStep (n : Nat) (ins : Instruction) (st : ExecState) : ExecState :=
  match ins.instruction with
  | .conditionalPush prev_syllables cur_syllables =>
    if st.mem.get_active Register.register0 <
        st.mem.get_inactive Register.register1 then
      { st with mem := st.mem.push_to_stack (prev_syllables : Int),
                instruction_pointer := st.instruction_pointer + 1 }
    else
      { st with mem := st.mem.push_to_stack (cur_syllables : Int),
                instruction_pointer := st.instruction_pointer + 1 }
  | _ => execStep n ins st

/-- The `while let Some(ins) = instructions.get(ip)` loop of
`Program::execute` in `src/src/program.rs`, with explicit fuel for the
possibly diverging source loop. -/
def execRun (prog : List Instruction) : Nat → ExecState → ExecState
  | 0, st => st
  | fuel + 1, st =>
    match prog.get? st.instruction_pointer with
    | none => st
    | some ins => execRun prog fuel (execStep prog.length ins st)

/-- Initial state of `Program::execute`: fresh memory, empty output,
instruction pointer `0`. -/
def initState : ExecState :=
  { mem := Memory.new, output := [], instruction_pointer := 0 }

/-! ## Parser (`src/ashpaper/src/parser.rs`) -/

/-- The Unicode `White_Space` property, which is what both the regex
crate's `\s` (`WS_START_RE` is `^\s`) and Rust's `char::is_whitespace` /
`str::trim` test. -/
def isRustWhitespace (c : Char) : Bool :=
  let n := c.toNat
  (9 ≤ n && n ≤ 13) || n == 32 || n == 0x85 || n == 0xA0 || n == 0x1680 ||
    (0x2000 ≤ n && n ≤ 0x200A) || n == 0x2028 || n == 0x2029 ||
    n == 0x202F || n == 0x205F || n == 0x3000

/-- Rust `str::split(sep)` for a one-character pattern: the (possibly
empty) segments between occurrences of `sep`. -/
def splitOnChar (sep : Char) : List Char → List (List Char)
  | [] => [[]]
  | c :: rest =>
    if c = sep then
      [] :: splitOnChar sep rest
    else
      match splitOnChar sep rest with
      | [] => [[c]]
      | p :: ps => (c :: p) :: ps

/-- Strip one trailing `'\r'`, as Rust `str::lines` does from each
`'\n'`-terminated segment. -/
def stripCr (l : List Char) : List Char :=
  if l.getLast? = some '\r' then l.dropLast else l

/-- Rust `str::lines` (used by `parse` via `input.lines()`): split on
`'\n'`, strip a `'\r'` left at the end of each terminated segment, and
drop the final segment when it is empty (a trailing newline produces no
extra line). -/
def rustLines (s : List Char) : List (List Char) :=
  let segs := splitOnChar '\n' s
  segs.dropLast.map stripCr ++
    match segs.getLast? with
    | some [] => []
    | some l => [l]
    | none => []

/-- Rust `str::trim`: drop leading and trailing whitespace. -/
def rustTrim (l : List Char) : List Char :=
  ((l.dropWhile isRustWhitespace).reverse.dropWhile isRustWhitespace).reverse

/-- Rust `str::trim_end`: drop trailing whitespace. -/
def rustTrimEnd (l : List Char) : List Char :=
  (l.reverse.dropWhile isRustWhitespace).reverse

/-- `WS_START_RE.is_match(line)` for the pattern `^\s`: the line starts
with a whitespace character. -/
def wsStart (l : List Char) : Bool :=
  match l.head? with
  | some c => isRustWhitespace c
  | none => false

/-- The `for line in input.lines()` loop body of `parse`
(`src/ashpaper/src/parser.rs`), abstracted over `classify`: the
`else if` cascade below the blank-line test (end-rhyme, `/`, the capital
and simile regexes, punctuation, alliteration, `Store`), which consults
the external CMU pronunciation dictionary and the regex engine.
`classify` receives `last_line_option` and the current raw line, exactly
the data that cascade reads.  The blank-line rule, the register rule and
the stored line text are concrete, as in the source. -/
def parseLoop (classify : Option (List Char) → List Char → InsType) :
    Option (List Char) → List (List Char) → List Instruction
  | _, [] => []
  | lastLineOption, line :: rest =>
    let insType :=
      if (rustTrim line).isEmpty then InsType.noop
      else classify lastLineOption line
    let register :=
      if wsStart line then Register.register1 else Register.register0
    { instruction := insType, register := register,
      line := rustTrimEnd line } :: parseLoop classify (some line) rest

/-- `parse` from `src/ashpaper/src/parser.rs`, abstracted over the
non-blank classification cascade (see `parseLoop`). -/
def parseWith (classify : Option (List Char) → List Char → InsType)
    (input : List Char) : List Instruction :=
  parseLoop classify none (rustLines input)

/-- A concrete stand-in for the classification cascade, used to
instantiate `parseWith` on closed inputs in statements that do not
depend on how non-blank lines are classified. -/
def constStoreClassify : Option (List Char) → List Char → InsType :=
  fun _ _ => InsType.store 0

/-! ## Syllable heuristic (`src/ashpaper/src/parser.rs`) -/

/-- The vowel letters of `VOWEL_CLUSTER_RE` (`[^aeiouy]+`). -/
def isVowelLetter (c : Char) : Bool :=
  c == 'a' || c == 'e' || c == 'i' || c == 'o' || c == 'u' || c == 'y'

theorem dropWhile_length_le (p : Char → Bool) (l : List Char) :
    (l.dropWhile p).length ≤ l.length := by
  induction l with
  | nil => simp [List.dropWhile]
  | cons c l ih =>
    rw [List.dropWhile]
    cases hp : p c
    · simp
    · exact ih.trans (Nat.le_succ _)

/-- `VOWEL_CLUSTER_RE.split(word)` for the pattern `[^aeiouy]+`: the
segments of `word` between maximal runs of non-vowel characters.  A
leading or trailing separator run leaves an empty segment at that end,
as the regex crate's `split` does. -/
def vowelSplit : List Char → List (List Char)
  | [] => [[]]
  | c :: rest =>
    if isVowelLetter c then
      match vowelSplit rest with
      | [] => [[c]]
      | p :: ps => (c :: p) :: ps
    else
      [] :: vowelSplit (rest.dropWhile (fun d => !isVowelLetter d))
termination_by l => l.length
decreasing_by
  · simp only [List.length_cons]
    omega
  · simp only [List.length_cons]
    exact Nat.lt_succ_of_le (dropWhile_length_le _ rest)

/-- The fixed diphthong list of `approximate_syllables`. -/
def DIPHTHONGS : List (List Char) :=
  [['a', 'i'], ['a', 'u'], ['a', 'y'], ['e', 'a'], ['e', 'e'], ['e', 'i'],
   ['e', 'y'], ['o', 'a'], ['o', 'e'], ['o', 'i'], ['o', 'o'], ['o', 'u'],
   ['o', 'y'], ['u', 'a'], ['u', 'e'], ['u', 'i']]

/-- `approximate_syllables` from `src/ashpaper/src/parser.rs`: sum, over
the regex-split clusters, `1` for a diphthong and `min 2 (length)`
otherwise. -/
def approximate_syllables (word : List Char) : Nat :=
  (vowelSplit word).foldl
    (fun count cluster =>
      count + if DIPHTHONGS.contains cluster then 1 else min 2 cluster.length)
    0

/-- `count_word_syllables` from `src/ashpaper/src/parser.rs`,
parameterized by the external CMU dictionary: `dict w` is `some n` when
the dictionary knows `w`, with `n` the maximum syllabic-phoneme count
over its pronunciations (the `rules.iter().map(...).max()` value), and
`none` for an unknown word, which falls back to the heuristic. -/
def count_word_syllables (dict : List Char → Option Nat)
    (word : List Char) : Nat :=
  match dict word with
  | some n => n
  | none => approximate_syllables word

/-- `char::to_lowercase` applied to every character of a string: the
per-character portion of `str::to_lowercase` (`lower` is the Unicode
per-character lowercase expansion; a character can lowercase to several
characters).  `rustToLowercase` takes this path on every character
except `'Σ'`. -/
def toLowerStr (lower : Char → List Char) (s : List Char) : List Char :=
  (s.map lower).flatten

/-- `case_ignorable_then_cased` from the Rust standard library's
`str::to_lowercase`: skip `Case_Ignorable` characters, then test whether
the first remaining character is `Cased`; `false` when none remains.
`ci` and `cased` are the two Unicode properties, abstracted. -/
def case_ignorable_then_cased (ci cased : Char → Bool) (l : List Char) :
    Bool :=
  match l.dropWhile ci with
  | [] => false
  | c :: _ => cased c

/-- The characters `str::to_lowercase` emits for one character `c`:
`'Σ'` is special-cased per `map_uppercase_sigma` — it lowercases to
`'ς'` when the Unicode `Final_Sigma` condition holds (the preceding
characters, nearest first in `revPre`, are case-ignorable-then-cased and
the following characters `rest` are not) and to `'σ'` otherwise — and
every other character maps through `char::to_lowercase`. -/
def lowerBlock (lower : Char → List Char) (ci cased : Char → Bool)
    (revPre : List Char) (c : Char) (rest : List Char) : List Char :=
  if c = 'Σ' then
    if case_ignorable_then_cased ci cased revPre &&
        !case_ignorable_then_cased ci cased rest then ['ς'] else ['σ']
  else lower c

/-- The character loop of `str::to_lowercase`: `revPre` is the reversed
list of already-consumed original characters (the `from[..i]` context of
the std implementation). -/
def toLowercaseAux (lower : Char → List Char) (ci cased : Char → Bool) :
    List Char → List Char → List Char
  | _, [] => []
  | revPre, c :: rest =>
    lowerBlock lower ci cased revPre c rest ++
      toLowercaseAux lower ci cased (c :: revPre) rest

/-- Rust `str::to_lowercase`, parameterized by the Unicode tables it
consults: the per-character expansion `lower` (`char::to_lowercase`) and
the `Case_Ignorable` and `Cased` properties, with the context-sensitive
`Final_Sigma` handling of `'Σ'`. -/
def rustToLowercase (lower : Char → List Char) (ci cased : Char → Bool)
    (s : List Char) : List Char :=
  toLowercaseAux lower ci cased [] s

/-- `count_syllables` from `src/ashpaper/src/parser.rs`: split on the
space character, drop empty tokens, sum the per-word counts of the
lowercased tokens. -/
def count_syllables (dict : List Char → Option Nat)
    (lower : Char → List Char) (ci cased : Char → Bool)
    (input : List Char) : Nat :=
  (((splitOnChar ' ' input).filter (fun s => !s.isEmpty)).map
    (fun w =>
      count_word_syllables dict (rustToLowercase lower ci cased w))).sum

/-! ## JIT `Push` lowering (`src/src/jit.rs`) -/

/-- `STACK_SIZE` from `src/src/jit.rs`: the JIT stack slot holds 128
values. -/
def STACK_SIZE : Nat := 128

/-- The IR operations `JIT::translate_push` can emit, named after the
cranelift builder calls. -/
inductive JitOp where
  | useVar (v : Nat)
  | storeToPtr
  | iconst (n : Int)
  | iadd
  | defVar (v : Nat)
  | icmp
  | brnz (target : Nat)
  | jump (target : Nat)
  | trap
deriving DecidableEq, Repr

/-- The builder calls `JIT::translate_push` makes, in order
(`src/src/jit.rs`): `use_var(reg)`, `use_var(stack.ptr)`, `store`,
`iconst(pointer bytes)`, `iadd`, `def_var(stack.ptr)`. -/
def translate_push_ops (regVar ptrVar : Nat) (ptrBytes : Int) : List JitOp :=
  [.useVar regVar, .useVar ptrVar, .storeToPtr, .iconst ptrBytes, .iadd,
   .defVar ptrVar]

/-- An operation that would be needed for a bounds check: a comparison
or any branch (conditional, unconditional or trapping). -/
def isCompareOrBranch : JitOp → Bool
  | .icmp => true
  | .brnz _ => true
  | .jump _ => true
  | .trap => true
  | _ => false

/-- The stack state of a running JIT-compiled program, in slot units
from the start of the `128 * pointer_bytes` stack slot: a log of the
stores performed into the slot (index, value) and the current top.
`endSlot` is the slot index one past the stack area (`STACK_SIZE`). -/
structure JitStackState where
  writes : List (Nat × Int)
  top : Nat
  endSlot : Nat
deriving DecidableEq, Repr

/-- Result of running one lowered `Push`. -/
inductive JitPushResult where
  | ok (st : JitStackState)
  | trapStackOverflow
deriving DecidableEq, Repr

/-- The runtime effect of the IR `JIT::translate_push` emits: store the
register value at `[top]` and advance `top` by one slot,
unconditionally — the emitted code never consults `endSlot` and never
reaches the overflow trap block. -/
def translate_push_effect (v : Int) (st : JitStackState) : JitPushResult :=
  .ok { st with writes := (st.top, v) :: st.writes, top := st.top + 1 }

/-! ## Theorems -/

/-- C1: in `Program::execute` (`src/src/program.rs`), a
`ConditionalPush { prev_syllables, cur_syllables }` instruction compares
the active register against the inactive register of its own `register`
field, pushes `prev_syllables` when `A < I` and `cur_syllables`
otherwise, and changes nothing else: both registers and the output are
untouched and the instruction pointer advances by one. -/
theorem conditionalPush_uses_own_register (n : Nat) (st : ExecState)
    (reg : Register) (prev cur : Nat) (line : List Char) :
    ((execStep n ⟨.conditionalPush prev cur, reg, line⟩ st).mem.stack =
      (if st.mem.get_active reg < st.mem.get_inactive reg
        then (prev : Int) else (cur : Int)) :: st.mem.stack) ∧
    (execStep n ⟨.conditionalPush prev cur, reg, line⟩ st).mem.register0 =
      st.mem.register0 ∧
    (execStep n ⟨.conditionalPush prev cur, reg, line⟩ st).mem.register1 =
      st.mem.register1 ∧
    (execStep n ⟨.conditionalPush prev cur, reg, line⟩ st).output =
      st.output ∧
    (execStep n ⟨.conditionalPush prev cur, reg, line⟩ st).instruction_pointer =
      st.instruction_pointer + 1 := by
  by_cases h : st.mem.get_active reg < st.mem.get_inactive reg <;>
    simp [execStep, Memory.push_to_stack, h]

/-- C5: in the ashpaper crate's interpreter (`execute` in
`src/ashpaper/src/program.rs`) the `ConditionalPush` guard reads
`get_active(Register0)` and `get_inactive(Register1)`, both of which
resolve to `register0`; the comparison is therefore false in every
state, so the instruction always pushes `cur_syllables` and never
`prev_syllables`, whatever its register field. -/
theorem ashpaper_conditionalPush_always_pushes_cur (n : Nat)
    (st : ExecState) (reg : Register) (prev cur : Nat) (line : List Char) :
    st.mem.get_active Register.register0 = st.mem.register0 ∧
    st.mem.get_inactive Register.register1 = st.mem.register0 ∧
    ¬ (st.mem.get_active Register.register0 <
        st.mem.get_inactive Register.register1) ∧
    (ashExecStep n ⟨.conditionalPush prev cur, reg, line⟩ st).mem.stack =
      (cur : Int) :: st.mem.stack ∧
    (ashExecStep n ⟨.conditionalPush prev cur, reg, line⟩ st).mem.register0 =
      st.mem.register0 ∧
    (ashExecStep n ⟨.conditionalPush prev cur, reg, line⟩ st).mem.register1 =
      st.mem.register1 ∧
    (ashExecStep n ⟨.conditionalPush prev cur, reg, line⟩ st).output =
      st.output := by
  refine ⟨rfl, rfl, lt_irrefl _, ?_⟩
  simp [ashExecStep, Memory.get_active, Memory.get_inactive,
    Memory.push_to_stack]

/-- C6: `PrintChar` appends exactly one character whose code point is
`|A| mod 255`, in both the interpreter of `src/src/program.rs` and the
JIT runtime helper `put_char` of `src/src/rt.rs`; the code point `255`
is never produced.  Registers, stack and the rest of the output are
unchanged. -/
theorem printChar_appends_abs_mod_255 (n : Nat) (st : ExecState)
    (reg : Register) (line : List Char) (v : Int) :
    (execStep n ⟨.printChar, reg, line⟩ st).output =
      st.output ++
        [Char.ofNat ((st.mem.get_active reg).natAbs % 255)] ∧
    put_char v = v.natAbs % 255 ∧
    put_char v < 255 ∧
    (Char.ofNat (put_char v)).toNat ≠ 255 ∧
    (execStep n ⟨.printChar, reg, line⟩ st).mem = st.mem ∧
    (execStep n ⟨.printChar, reg, line⟩ st).instruction_pointer =
      st.instruction_pointer + 1 := by
  refine ⟨by simp [execStep, put_char], rfl, Nat.mod_lt _ (by norm_num),
    ?_, by simp [execStep], by simp [execStep]⟩
  have hlt : put_char v < 255 := Nat.mod_lt _ (by norm_num)
  have hvalid : Nat.isValidChar (put_char v) := Or.inl (by omega)
  have htoNat : (Char.ofNat (put_char v)).toNat = put_char v := by
    rw [Char.ofNat, dif_pos hvalid]
    rfl
  omega

/-- C8: in `Program::execute` (`src/src/program.rs`; the ashpaper-crate
`Memory::pop` is identical), `Pop` on an empty stack changes nothing but
the instruction pointer, and on a non-empty stack moves the top element
into the instruction's register, leaving the rest of the stack, the
other register and the output unchanged. -/
theorem pop_empty_is_noop_nonempty_transfers (n : Nat) (st : ExecState)
    (reg : Register) (line : List Char) :
    (st.mem.stack = [] →
      execStep n ⟨.pop, reg, line⟩ st =
        { st with instruction_pointer := st.instruction_pointer + 1 }) ∧
    (∀ v rest, st.mem.stack = v :: rest →
      (execStep n ⟨.pop, reg, line⟩ st).mem.get_active reg = v ∧
      (execStep n ⟨.pop, reg, line⟩ st).mem.get_inactive reg =
        st.mem.get_inactive reg ∧
      (execStep n ⟨.pop, reg, line⟩ st).mem.stack = rest ∧
      (execStep n ⟨.pop, reg, line⟩ st).output = st.output ∧
      (execStep n ⟨.pop, reg, line⟩ st).instruction_pointer =
        st.instruction_pointer + 1) := by
  constructor
  · intro h
    cases reg <;> simp [execStep, Memory.pop, h]
  · intro v rest h
    cases reg <;>
      simp [execStep, Memory.pop, Memory.get_active, Memory.get_inactive, h]

/-- Closed witness for `pop_empty_is_noop_nonempty_transfers`, at an
empty-stack state and at a state whose stack is `[5, 9]`. -/
theorem pop_empty_is_noop_nonempty_transfers_witness :
    (execStep 1 ⟨.pop, Register.register0, []⟩
        { mem := Memory.new, output := [], instruction_pointer := 0 } =
      { mem := Memory.new, output := [], instruction_pointer := 1 }) ∧
    ((execStep 1 ⟨.pop, Register.register0, []⟩
        { mem := { register0 := 1, register1 := 2, stack := [5, 9] },
          output := [], instruction_pointer := 0 }).mem.get_active
        Register.register0 = 5 ∧
      (execStep 1 ⟨.pop, Register.register0, []⟩
        { mem := { register0 := 1, register1 := 2, stack := [5, 9] },
          output := [], instruction_pointer := 0 }).mem.get_inactive
        Register.register0 =
        ({ register0 := 1, register1 := 2, stack := [5, 9] } :
          Memory).get_inactive Register.register0 ∧
      (execStep 1 ⟨.pop, Register.register0, []⟩
        { mem := { register0 := 1, register1 := 2, stack := [5, 9] },
          output := [], instruction_pointer := 0 }).mem.stack = [9] ∧
      (execStep 1 ⟨.pop, Register.register0, []⟩
        { mem := { register0 := 1, register1 := 2, stack := [5, 9] },
          output := [], instruction_pointer := 0 }).output = [] ∧
      (execStep 1 ⟨.pop, Register.register0, []⟩
        { mem := { register0 := 1, register1 := 2, stack := [5, 9] },
          output := [], instruction_pointer := 0 }).instruction_pointer =
        0 + 1) :=
  ⟨(pop_empty_is_noop_nonempty_transfers 1
      { mem := Memory.new, output := [], instruction_pointer := 0 }
      Register.register0 []).1 rfl,
    (pop_empty_is_noop_nonempty_transfers 1
      { mem := { register0 := 1, register1 := 2, stack := [5, 9] },
        output := [], instruction_pointer := 0 }
      Register.register0 []).2 5 [9] rfl⟩

/-- C3: in `Program::execute` (`src/src/program.rs`) with `N > 0`
instructions, the loop body only ever runs with `ip < N`; `Goto` sets
`ip` to `|active| mod N` and a taken `ConditionalGoto` sets it to
`|inactive| mod N`, both of which are `< N`; every other step leaves
`ip + 1`; and the loop exits as soon as `ip ≥ N`. -/
theorem ip_in_range_invariant (prog : List Instruction) (st : ExecState)
    (ins : Instruction) (hN : 0 < prog.length)
    (hins : prog.get? st.instruction_pointer = some ins) :
    st.instruction_pointer < prog.length ∧
    ((execStep prog.length ins st).instruction_pointer < prog.length ∨
      (execStep prog.length ins st).instruction_pointer =
        st.instruction_pointer + 1) ∧
    (ins.instruction = InsType.goto →
      (execStep prog.length ins st).instruction_pointer =
        (st.mem.get_active ins.register).natAbs % prog.length ∧
      (execStep prog.length ins st).instruction_pointer < prog.length) ∧
    (∀ k, ins.instruction = InsType.conditionalGoto k →
      st.mem.get_active ins.register > (k : Int) →
      (execStep prog.length ins st).instruction_pointer =
        (st.mem.get_inactive ins.register).natAbs % prog.length ∧
      (execStep prog.length ins st).instruction_pointer < prog.length) ∧
    (∀ fuel t, prog.length ≤ t.instruction_pointer →
      execRun prog fuel t = t) := by
  refine ⟨?_, ?_, ?_, ?_, ?_⟩
  · by_contra h
    rw [List.get?_eq_none.mpr (le_of_not_lt h)] at hins
    exact Option.noConfusion hins
  · cases hi : ins.instruction
    case conditionalPush p c =>
      simp only [execStep, hi]
      split <;> exact Or.inr rfl
    case conditionalGoto k =>
      simp only [execStep, hi]
      split
      · exact Or.inl (Nat.mod_lt _ hN)
      · exact Or.inr rfl
    case goto =>
      simp only [execStep, hi]
      exact Or.inl (Nat.mod_lt _ hN)
    all_goals simp [execStep, hi]
  · intro hi
    simp [execStep, hi, Nat.mod_lt _ hN]
  · intro k hi hgt
    simp [execStep, hi, hgt, Nat.mod_lt _ hN]
  · intro fuel t ht
    cases fuel with
    | zero => rfl
    | succ fuel => simp [execRun, List.getElem?_eq_none ht]

/-- Closed witness for `ip_in_range_invariant`, on the one-instruction
program `[Noop]` at the initial state. -/
theorem ip_in_range_invariant_witness :
    (0 : Nat) < [(⟨.noop, .register0, []⟩ : Instruction)].length ∧
    [(⟨.noop, .register0, []⟩ : Instruction)].get? 0 =
      some ⟨.noop, .register0, []⟩ ∧
    (initState.instruction_pointer <
        [(⟨.noop, .register0, []⟩ : Instruction)].length ∧
      ((execStep 1 ⟨.noop, .register0, []⟩ initState).instruction_pointer <
          1 ∨
        (execStep 1 ⟨.noop, .register0, []⟩ initState).instruction_pointer =
          initState.instruction_pointer + 1)) :=
  ⟨by decide, rfl, by
    have h := ip_in_range_invariant [⟨.noop, .register0, []⟩] initState
      ⟨.noop, .register0, []⟩ (by decide) rfl
    exact ⟨h.1, h.2.1⟩⟩

/-- C2 evidence: `JIT::translate_push` (`src/src/jit.rs`) emits no
comparison and no branch at all — in particular none against the stack
end pointer and none to the stack-overflow trap block — and the runtime
effect of the code it emits, started at `top = end = STACK_SIZE`, still
stores at slot `STACK_SIZE` (one past the last stack slot) and advances
`top` to `STACK_SIZE + 1` instead of trapping. -/
theorem translate_push_never_checks_overflow :
    (∀ regVar ptrVar : Nat, ∀ ptrBytes : Int,
      (translate_push_ops regVar ptrVar ptrBytes).all
        (fun op => !isCompareOrBranch op) = true) ∧
    translate_push_effect 7
        { writes := [], top := STACK_SIZE, endSlot := STACK_SIZE } =
      .ok { writes := [(STACK_SIZE, 7)], top := STACK_SIZE + 1,
            endSlot := STACK_SIZE } ∧
    translate_push_effect 7
        { writes := [], top := STACK_SIZE, endSlot := STACK_SIZE } ≠
      JitPushResult.trapStackOverflow := by
  refine ⟨?_, by decide, by decide⟩
  intro regVar ptrVar ptrBytes
  simp [translate_push_ops, isCompareOrBranch]

theorem parseLoop_length (classify : Option (List Char) → List Char → InsType) :
    ∀ (lines : List (List Char)) (last : Option (List Char)),
      (parseLoop classify last lines).length = lines.length := by
  intro lines
  induction lines with
  | nil => intro last; rfl
  | cons l rest ih => intro last; simp [parseLoop, ih]

theorem parseLoop_get? (classify : Option (List Char) → List Char → InsType) :
    ∀ (lines : List (List Char)) (last : Option (List Char)) (i : Nat)
      (ins : Instruction),
      (parseLoop classify last lines).get? i = some ins →
      ∃ line, lines.get? i = some line ∧
        ins.register =
          (if wsStart line then Register.register1 else Register.register0) ∧
        ins.line = rustTrimEnd line ∧
        ((rustTrim line).isEmpty = true → ins.instruction = InsType.noop) := by
  intro lines
  induction lines with
  | nil => intro last i ins h; simp [parseLoop] at h
  | cons l rest ih =>
    intro last i ins h
    cases i with
    | zero =>
      refine ⟨l, rfl, ?_⟩
      simp only [parseLoop, List.get?] at h
      cases h' : (rustTrim l).isEmpty <;>
        simp only [h'] at h <;>
        injection h with h <;> subst h <;> simp [h']
    | succ i =>
      simp only [parseLoop, List.get?] at h
      exact ih (some l) i ins h

/-- C4 (amended): `parse` (`src/ashpaper/src/parser.rs`) produces
exactly one `Instruction` per line of `input.lines()` — one per
`\n`-separated segment, except that a trailing `\n` yields no extra
empty-line instruction — in order, with the line's trailing-whitespace-
stripped text stored on the instruction, and every line whose trimmed
content is empty classified as `Noop`. -/
theorem parse_one_instruction_per_line
    (classify : Option (List Char) → List Char → InsType) (s : List Char) :
    (parseWith classify s).length = (rustLines s).length ∧
    (∀ i ins, (parseWith classify s).get? i = some ins →
      ∃ line, (rustLines s).get? i = some line ∧
        ins.line = rustTrimEnd line ∧
        ((rustTrim line).isEmpty = true → ins.instruction = InsType.noop)) := by
  constructor
  · exact parseLoop_length classify (rustLines s) none
  · intro i ins h
    obtain ⟨line, hline, _, hrest⟩ :=
      parseLoop_get? classify (rustLines s) none i ins h
    exact ⟨line, hline, hrest⟩

/-- Closed witness for `parse_one_instruction_per_line` on the source
`"a\n\n b"`: three lines, the middle one blank and hence a `Noop`. -/
theorem parse_one_instruction_per_line_witness :
    ((parseWith constStoreClassify ['a', '\n', '\n', ' ', 'b']).length =
        (rustLines ['a', '\n', '\n', ' ', 'b']).length) ∧
    (∃ line, (rustLines ['a', '\n', '\n', ' ', 'b']).get? 1 = some line ∧
      ({ instruction := InsType.noop, register := Register.register0,
         line := [] } : Instruction).line = rustTrimEnd line ∧
      ((rustTrim line).isEmpty = true →
        ({ instruction := InsType.noop, register := Register.register0,
           line := [] } : Instruction).instruction = InsType.noop)) :=
  ⟨(parse_one_instruction_per_line constStoreClassify
      ['a', '\n', '\n', ' ', 'b']).1,
    (parse_one_instruction_per_line constStoreClassify
      ['a', '\n', '\n', ' ', 'b']).2 1
      { instruction := InsType.noop, register := Register.register0,
        line := [] } (by rfl)⟩

/-- C4 counterexample: a source ending in `'\n'` does *not* get an
instruction for the trailing empty segment.  For the two-character
source `"a\n"` there are two `\n`-delimited segments but `parse`
produces a single instruction. -/
theorem parse_trailing_newline_counterexample :
    (parseWith constStoreClassify ['a', '\n']).length = 1 ∧
    (splitOnChar '\n' ['a', '\n']).length = 2 ∧
    (parseWith constStoreClassify ['a', '\n']).length ≠
      (splitOnChar '\n' ['a', '\n']).length := by
  refine ⟨rfl, rfl, by decide⟩

/-- C9: every instruction `parse` produces carries register `R1` exactly
when the raw line's first character is whitespace (`WS_START_RE` is
`^\s`), and `R0` otherwise — in particular `R0` for an empty line — and
the register depends on nothing but that first character. -/
theorem register_selected_by_first_char
    (classify : Option (List Char) → List Char → InsType) (s : List Char)
    (i : Nat) (ins : Instruction)
    (h : (parseWith classify s).get? i = some ins) :
    ∃ line, (rustLines s).get? i = some line ∧
      ins.register =
        (match line.head? with
          | some c =>
            if isRustWhitespace c then Register.register1
            else Register.register0
          | none => Register.register0) := by
  obtain ⟨line, hline, hreg, -, -⟩ :=
    parseLoop_get? classify (rustLines s) none i ins h
  refine ⟨line, hline, ?_⟩
  rw [hreg]
  cases line <;> simp [wsStart]

/-- Closed witness for `register_selected_by_first_char` on the source
`" a\nb"`: the first line starts with a space. -/
theorem register_selected_by_first_char_witness :
    ∃ line, (rustLines [' ', 'a', '\n', 'b']).get? 0 = some line ∧
      ({ instruction := InsType.store 0, register := Register.register1,
         line := [' ', 'a'].reverse.dropWhile isRustWhitespace |>.reverse } :
        Instruction).register =
        (match line.head? with
          | some c =>
            if isRustWhitespace c then Register.register1
            else Register.register0
          | none => Register.register0) :=
  register_selected_by_first_char constStoreClassify [' ', 'a', '\n', 'b'] 0
    { instruction := InsType.store 0, register := Register.register1,
      line := [' ', 'a'].reverse.dropWhile isRustWhitespace |>.reverse }
    (by rfl)

/-! ## C7: the heuristic sums contributions of maximal vowel runs -/

/-- The per-cluster contribution of `approximate_syllables`: `1` for a
diphthong, `min 2 (length)` otherwise. -/
def clusterContribution (cluster : List Char) : Nat :=
  if DIPHTHONGS.contains cluster then 1 else min 2 cluster.length

/-- Stated from the spec's wording, for comparison with `vowelSplit`:
the maximal runs of vowel letters of a word, with every maximal run of
non-vowel characters acting as a separator and no empty clusters. -/
def vowelRuns : List Char → List (List Char)
  | [] => []
  | c :: rest =>
    if isVowelLetter c then
      (c :: rest.takeWhile isVowelLetter) ::
        vowelRuns (rest.dropWhile isVowelLetter)
    else
      vowelRuns rest
termination_by l => l.length
decreasing_by
  · simp only [List.length_cons]
    exact Nat.lt_succ_of_le (dropWhile_length_le _ rest)
  · simp only [List.length_cons]
    omega

theorem foldl_add_clusterContribution (l : List (List Char)) :
    ∀ k : Nat,
      l.foldl
        (fun count cluster =>
          count +
            if DIPHTHONGS.contains cluster then 1 else min 2 cluster.length)
        k = k + (l.map clusterContribution).sum := by
  induction l with
  | nil => intro k; simp
  | cons c l ih =>
    intro k
    simp only [List.foldl, List.map, List.sum_cons, ih, clusterContribution]
    omega

theorem vowelSplit_structure (l : List Char) :
    ∃ ps, vowelSplit l = l.takeWhile isVowelLetter :: ps ∧
      vowelSplit (l.dropWhile isVowelLetter) = [] :: ps := by
  induction l with
  | nil => exact ⟨[], by simp [vowelSplit], by simp [vowelSplit]⟩
  | cons c rest ih =>
    cases hv : isVowelLetter c
    · refine ⟨vowelSplit (rest.dropWhile (fun d => !isVowelLetter d)),
        ?_, ?_⟩
      · simp [vowelSplit, hv, List.takeWhile_cons, hv]
      · simp [List.dropWhile_cons, hv, vowelSplit]
    · obtain ⟨ps, h1, h2⟩ := ih
      refine ⟨ps, ?_, ?_⟩
      · simp [vowelSplit, hv, h1, List.takeWhile_cons]
      · simp [List.dropWhile_cons, hv, h2]

theorem vowelRuns_dropWhile_nonvowel (l : List Char) :
    vowelRuns (l.dropWhile (fun d => !isVowelLetter d)) = vowelRuns l := by
  induction l with
  | nil => rfl
  | cons c rest ih =>
    cases hv : isVowelLetter c
    · simp only [List.dropWhile_cons, hv, Bool.not_false, if_pos]
      rw [ih]
      simp [vowelRuns, hv]
    · simp [List.dropWhile_cons, hv]

theorem vowelSplit_sum_eq_vowelRuns_sum :
    ∀ (n : Nat) (w : List Char), w.length ≤ n →
      ((vowelSplit w).map clusterContribution).sum =
        ((vowelRuns w).map clusterContribution).sum := by
  intro n
  induction n with
  | zero =>
    intro w hw
    rw [List.length_eq_zero.mp (Nat.le_zero.mp hw)]
    simp [vowelSplit, vowelRuns, clusterContribution, DIPHTHONGS]
  | succ n ih =>
    intro w hw
    cases w with
    | nil => simp [vowelSplit, vowelRuns, clusterContribution, DIPHTHONGS]
    | cons c rest =>
      simp only [List.length_cons, Nat.succ_le_succ_iff] at hw
      cases hv : isVowelLetter c
      · have hlen : (rest.dropWhile (fun d => !isVowelLetter d)).length ≤ n :=
          (dropWhile_length_le _ rest).trans hw
        have := ih _ hlen
        calc ((vowelSplit (c :: rest)).map clusterContribution).sum
            = ((vowelSplit
                (rest.dropWhile (fun d => !isVowelLetter d))).map
                clusterContribution).sum := by
              simp [vowelSplit, hv, clusterContribution, DIPHTHONGS]
          _ = ((vowelRuns
                (rest.dropWhile (fun d => !isVowelLetter d))).map
                clusterContribution).sum := this
          _ = ((vowelRuns rest).map clusterContribution).sum :=
              congrArg _ (congrArg _ (vowelRuns_dropWhile_nonvowel rest))
          _ = ((vowelRuns (c :: rest)).map clusterContribution).sum := by
              simp [vowelRuns, hv]
      · obtain ⟨ps, h1, h2⟩ := vowelSplit_structure rest
        have hlen : (rest.dropWhile isVowelLetter).length ≤ n :=
          (dropWhile_length_le _ rest).trans hw
        have hdrop := ih _ hlen
        rw [h2] at hdrop
        simp only [List.map_cons, List.sum_cons] at hdrop
        have hempty : clusterContribution [] = 0 := by
          simp [clusterContribution, DIPHTHONGS]
        rw [hempty, Nat.zero_add] at hdrop
        have hsplit : vowelSplit (c :: rest) =
            (c :: rest.takeWhile isVowelLetter) :: ps := by
          simp [vowelSplit, hv, h1]
        rw [hsplit]
        simp only [List.map_cons, List.sum_cons, hdrop]
        have hruns : vowelRuns (c :: rest) =
            (c :: rest.takeWhile isVowelLetter) ::
              vowelRuns (rest.dropWhile isVowelLetter) := by
          simp [vowelRuns, hv]
        rw [hruns]
        simp

/-- C7: for a word the pronunciation dictionary does not contain,
`count_word_syllables` (`src/ashpaper/src/parser.rs`) falls back to
`approximate_syllables`, whose value is the sum, over the maximal runs
of the vowel letters `{a,e,i,o,u,y}` (maximal runs of non-vowel
characters act as separators), of `1` for the 16 fixed diphthongs and
`min 2 (length)` otherwise; empty clusters contribute `0`. -/
theorem unknown_word_syllables_by_vowel_runs
    (dict : List Char → Option Nat) (w : List Char) (h : dict w = none) :
    count_word_syllables dict w =
      ((vowelRuns w).map clusterContribution).sum ∧
    (∀ cluster, clusterContribution cluster =
      if DIPHTHONGS.contains cluster then 1 else min 2 cluster.length) ∧
    clusterContribution [] = 0 := by
  refine ⟨?_, fun _ => rfl, by simp [clusterContribution, DIPHTHONGS]⟩
  rw [count_word_syllables, h]
  rw [approximate_syllables, foldl_add_clusterContribution, Nat.zero_add]
  exact vowelSplit_sum_eq_vowelRuns_sum w.length w le_rfl

/-- Closed witness for `unknown_word_syllables_by_vowel_runs` on the
word `"poem"` with an empty dictionary. -/
theorem unknown_word_syllables_by_vowel_runs_witness :
    count_word_syllables (fun _ => none) ['p', 'o', 'e', 'm'] =
      ((vowelRuns ['p', 'o', 'e', 'm']).map clusterContribution).sum ∧
    count_word_syllables (fun _ => none) ['p', 'o', 'e', 'm'] = 1 :=
  ⟨(unknown_word_syllables_by_vowel_runs (fun _ => none)
      ['p', 'o', 'e', 'm'] rfl).1, by
    simp [count_word_syllables, approximate_syllables, vowelSplit,
      isVowelLetter, DIPHTHONGS, List.dropWhile]⟩

/-! ## C10: `count_syllables` is invariant under lowercasing -/

theorem toLowerStr_append (lower : Char → List Char) (a b : List Char) :
    toLowerStr lower (a ++ b) = toLowerStr lower a ++ toLowerStr lower b := by
  simp [toLowerStr]

theorem splitOnChar_ne_nil (sep : Char) (l : List Char) :
    splitOnChar sep l ≠ [] := by
  cases l with
  | nil => simp [splitOnChar]
  | cons c rest =>
    rw [splitOnChar]
    by_cases h : c = sep
    · simp [h]
    · rw [if_neg h]
      cases splitOnChar sep rest <;> simp

theorem splitOnChar_append_sep_free (sep : Char) :
    ∀ (pre l : List Char) (p : List Char) (ps : List (List Char)),
      (∀ x ∈ pre, x ≠ sep) → splitOnChar sep l = p :: ps →
      splitOnChar sep (pre ++ l) = (pre ++ p) :: ps := by
  intro pre
  induction pre with
  | nil => intro l p ps _ h; simpa using h
  | cons c pre ih =>
    intro l p ps hfree h
    have hc : c ≠ sep := hfree c (by simp)
    have := ih l p ps (fun x hx => hfree x (by simp [hx])) h
    rw [List.cons_append, splitOnChar, if_neg hc, this]
    rfl

theorem cict_append_space (ci cased : Char → Bool)
    (hci : ci ' ' = false) (hcased : cased ' ' = false) :
    ∀ l m : List Char,
      case_ignorable_then_cased ci cased (l ++ ' ' :: m) =
        case_ignorable_then_cased ci cased l := by
  intro l m
  induction l with
  | nil =>
    simp [case_ignorable_then_cased, List.dropWhile_cons, hci, hcased,
      List.dropWhile]
  | cons c l ih =>
    cases hc : ci c
    · simp [case_ignorable_then_cased, List.dropWhile_cons, hc]
    · simpa [case_ignorable_then_cased, List.dropWhile_cons, hc] using ih

theorem toLowercaseAux_congr_pre (lower : Char → List Char)
    (ci cased : Char → Bool) :
    ∀ (b pre1 pre2 : List Char),
      (∀ x : List Char,
        case_ignorable_then_cased ci cased (x ++ pre1) =
          case_ignorable_then_cased ci cased (x ++ pre2)) →
      toLowercaseAux lower ci cased pre1 b =
        toLowercaseAux lower ci cased pre2 b := by
  intro b
  induction b with
  | nil => intro pre1 pre2 _; rfl
  | cons c b ih =>
    intro pre1 pre2 hpre
    have hblock : lowerBlock lower ci cased pre1 c b =
        lowerBlock lower ci cased pre2 c b := by
      have h0 := hpre []
      simp only [List.nil_append] at h0
      rw [lowerBlock, lowerBlock, h0]
    have hrec := ih (c :: pre1) (c :: pre2) (fun x => by
      have h := hpre (x ++ [c])
      rw [List.append_assoc, List.append_assoc] at h
      exact h)
    rw [toLowercaseAux, toLowercaseAux, hblock, hrec]

theorem toLowercaseAux_space_pre (lower : Char → List Char)
    (ci cased : Char → Bool)
    (hci : ci ' ' = false) (hcased : cased ' ' = false)
    (b m : List Char) :
    toLowercaseAux lower ci cased (' ' :: m) b =
      toLowercaseAux lower ci cased [] b := by
  apply toLowercaseAux_congr_pre
  intro x
  rw [List.append_nil]
  exact cict_append_space ci cased hci hcased x m

theorem splitOnChar_decomp (sep : Char) :
    ∀ (l p : List Char) (ps : List (List Char)),
      splitOnChar sep l = p :: ps →
      (l = p ∧ ps = []) ∨
        ∃ r, l = p ++ sep :: r ∧ splitOnChar sep r = ps := by
  intro l
  induction l with
  | nil =>
    intro p ps h
    rw [splitOnChar] at h
    injection h with h1 h2
    exact Or.inl ⟨h1, h2.symm⟩
  | cons c rest ih =>
    intro p ps h
    by_cases hc : c = sep
    · subst hc
      rw [splitOnChar, if_pos rfl] at h
      injection h with h1 h2
      subst h1
      exact Or.inr ⟨rest, rfl, h2⟩
    · obtain ⟨q, qs, hqs⟩ : ∃ q qs, splitOnChar sep rest = q :: qs := by
        cases hh : splitOnChar sep rest with
        | nil => exact absurd hh (splitOnChar_ne_nil _ _)
        | cons q qs => exact ⟨q, qs, rfl⟩
      rw [splitOnChar, if_neg hc, hqs] at h
      injection h with h1 h2
      subst h1
      subst h2
      rcases ih q qs hqs with ⟨hrest, hps⟩ | ⟨r, hrest, hr⟩
      · exact Or.inl ⟨by rw [hrest], hps⟩
      · exact Or.inr ⟨r, by rw [hrest]; rfl, hr⟩

theorem cict_of_splitOnChar (ci cased : Char → Bool)
    (hci : ci ' ' = false) (hcased : cased ' ' = false)
    (l t : List Char) (ts : List (List Char))
    (h : splitOnChar ' ' l = t :: ts) :
    case_ignorable_then_cased ci cased l =
      case_ignorable_then_cased ci cased t := by
  rcases splitOnChar_decomp ' ' l t ts h with ⟨hl, -⟩ | ⟨r, hl, -⟩
  · rw [hl]
  · rw [hl]
    exact cict_append_space ci cased hci hcased t r

theorem lowerBlock_space (lower : Char → List Char) (ci cased : Char → Bool)
    (hspace : lower ' ' = [' ']) (revPre rest : List Char) :
    lowerBlock lower ci cased revPre ' ' rest = [' '] := by
  rw [lowerBlock, if_neg (by decide), hspace]

theorem lowerBlock_no_space (lower : Char → List Char)
    (ci cased : Char → Bool)
    (hnospace : ∀ c, c ≠ ' ' → ∀ x ∈ lower c, x ≠ ' ')
    (revPre rest : List Char) (c : Char) (hc : c ≠ ' ') :
    ∀ x ∈ lowerBlock lower ci cased revPre c rest, x ≠ ' ' := by
  intro x hx
  rw [lowerBlock] at hx
  by_cases hs : c = 'Σ'
  · rw [if_pos hs] at hx
    split at hx <;> rw [List.mem_singleton] at hx <;> subst hx <;> decide
  · rw [if_neg hs] at hx
    exact hnospace c hc x hx

theorem splitOnChar_toLowercaseAux (lower : Char → List Char)
    (ci cased : Char → Bool)
    (hspace : lower ' ' = [' '])
    (hnospace : ∀ c, c ≠ ' ' → ∀ x ∈ lower c, x ≠ ' ')
    (hci : ci ' ' = false) (hcased : cased ' ' = false) :
    ∀ (s revPre t : List Char) (ts : List (List Char)),
      splitOnChar ' ' s = t :: ts →
      splitOnChar ' ' (toLowercaseAux lower ci cased revPre s) =
        toLowercaseAux lower ci cased revPre t ::
          ts.map (toLowercaseAux lower ci cased []) := by
  intro s
  induction s with
  | nil =>
    intro revPre t ts h
    rw [splitOnChar] at h
    injection h with h1 h2
    subst h1
    subst h2
    rfl
  | cons c rest ih =>
    intro revPre t ts h
    obtain ⟨q, qs, hqs⟩ : ∃ q qs, splitOnChar ' ' rest = q :: qs := by
      cases hh : splitOnChar ' ' rest with
      | nil => exact absurd hh (splitOnChar_ne_nil _ _)
      | cons q qs => exact ⟨q, qs, rfl⟩
    by_cases hc : c = ' '
    · subst hc
      rw [splitOnChar, if_pos rfl] at h
      injection h with h1 h2
      subst h1
      rw [toLowercaseAux]
      rw [toLowercaseAux]
      rw [lowerBlock_space lower ci cased hspace]
      rw [show ([' '] ++ toLowercaseAux lower ci cased (' ' :: revPre) rest)
        = ' ' :: toLowercaseAux lower ci cased (' ' :: revPre) rest from rfl]
      rw [splitOnChar, if_pos rfl]
      rw [toLowercaseAux_space_pre lower ci cased hci hcased rest revPre]
      rw [ih [] q qs hqs]
      rw [← h2, hqs]
      rfl
    · rw [splitOnChar, if_neg hc, hqs] at h
      injection h with h1 h2
      subst h1
      subst h2
      rw [toLowercaseAux]
      rw [splitOnChar_append_sep_free ' '
        (lowerBlock lower ci cased revPre c rest)
        (toLowercaseAux lower ci cased (c :: revPre) rest)
        (toLowercaseAux lower ci cased (c :: revPre) q)
        (qs.map (toLowercaseAux lower ci cased []))
        (lowerBlock_no_space lower ci cased hnospace revPre rest c hc)
        (ih (c :: revPre) q qs hqs)]
      rw [toLowercaseAux]
      have hctx : lowerBlock lower ci cased revPre c rest =
          lowerBlock lower ci cased revPre c q := by
        rw [lowerBlock, lowerBlock,
          cict_of_splitOnChar ci cased hci hcased rest q qs hqs]
      rw [hctx]

theorem splitOnChar_rustToLowercase (lower : Char → List Char)
    (ci cased : Char → Bool)
    (hspace : lower ' ' = [' '])
    (hnospace : ∀ c, c ≠ ' ' → ∀ x ∈ lower c, x ≠ ' ')
    (hci : ci ' ' = false) (hcased : cased ' ' = false)
    (s : List Char) :
    splitOnChar ' ' (rustToLowercase lower ci cased s) =
      (splitOnChar ' ' s).map (rustToLowercase lower ci cased) := by
  obtain ⟨t, ts, hts⟩ : ∃ t ts, splitOnChar ' ' s = t :: ts := by
    cases hh : splitOnChar ' ' s with
    | nil => exact absurd hh (splitOnChar_ne_nil _ _)
    | cons t ts => exact ⟨t, ts, rfl⟩
  rw [hts, rustToLowercase,
    splitOnChar_toLowercaseAux lower ci cased hspace hnospace hci hcased
      s [] t ts hts]
  rfl

theorem lowerBlock_no_sigma (lower : Char → List Char)
    (ci cased : Char → Bool)
    (hnosig : ∀ c, 'Σ' ∉ lower c) (revPre rest : List Char) (c : Char) :
    'Σ' ∉ lowerBlock lower ci cased revPre c rest := by
  rw [lowerBlock]
  by_cases hs : c = 'Σ'
  · rw [if_pos hs]
    split <;> decide
  · rw [if_neg hs]
    exact hnosig c

theorem toLowercaseAux_no_sigma (lower : Char → List Char)
    (ci cased : Char → Bool) (hnosig : ∀ c, 'Σ' ∉ lower c) :
    ∀ (s revPre : List Char),
      'Σ' ∉ toLowercaseAux lower ci cased revPre s := by
  intro s
  induction s with
  | nil => intro revPre; simp [toLowercaseAux]
  | cons c rest ih =>
    intro revPre
    rw [toLowercaseAux]
    rw [List.mem_append]
    push_neg
    exact ⟨lowerBlock_no_sigma lower ci cased hnosig revPre rest c,
      ih (c :: revPre)⟩

theorem toLowercaseAux_sigma_free (lower : Char → List Char)
    (ci cased : Char → Bool) :
    ∀ (s : List Char), 'Σ' ∉ s → ∀ revPre,
      toLowercaseAux lower ci cased revPre s = toLowerStr lower s := by
  intro s
  induction s with
  | nil => intro _ revPre; simp [toLowercaseAux, toLowerStr]
  | cons c rest ih =>
    intro hs revPre
    have hc : c ≠ 'Σ' := fun h => hs (by rw [h]; exact List.mem_cons_self _ _)
    rw [toLowercaseAux, lowerBlock, if_neg (fun h => hc h)]
    rw [ih (fun h => hs (List.mem_cons_of_mem c h)) (c :: revPre)]
    simp [toLowerStr]

theorem toLowerStr_fixes_toLowercaseAux (lower : Char → List Char)
    (ci cased : Char → Bool)
    (hidem : ∀ c, toLowerStr lower (lower c) = lower c)
    (hlossig : lower 'σ' = ['σ']) (hlofin : lower 'ς' = ['ς']) :
    ∀ (s revPre : List Char),
      toLowerStr lower (toLowercaseAux lower ci cased revPre s) =
        toLowercaseAux lower ci cased revPre s := by
  intro s
  induction s with
  | nil => intro revPre; rfl
  | cons c rest ih =>
    intro revPre
    rw [toLowercaseAux, toLowerStr_append, ih (c :: revPre)]
    congr 1
    rw [lowerBlock]
    by_cases hs : c = 'Σ'
    · rw [if_pos hs]
      split
      · simp [toLowerStr, hlofin]
      · simp [toLowerStr, hlossig]
    · rw [if_neg hs]
      exact hidem c

theorem rustToLowercase_idem (lower : Char → List Char)
    (ci cased : Char → Bool)
    (hnosig : ∀ c, 'Σ' ∉ lower c)
    (hidem : ∀ c, toLowerStr lower (lower c) = lower c)
    (hlossig : lower 'σ' = ['σ']) (hlofin : lower 'ς' = ['ς'])
    (s : List Char) :
    rustToLowercase lower ci cased (rustToLowercase lower ci cased s) =
      rustToLowercase lower ci cased s := by
  rw [rustToLowercase, rustToLowercase]
  rw [toLowercaseAux_sigma_free lower ci cased
    (toLowercaseAux lower ci cased [] s)
    (toLowercaseAux_no_sigma lower ci cased hnosig s []) []]
  exact toLowerStr_fixes_toLowercaseAux lower ci cased hidem hlossig
    hlofin s []

theorem rustToLowercase_isEmpty (lower : Char → List Char)
    (ci cased : Char → Bool) (hne : ∀ c, lower c ≠ [])
    (w : List Char) :
    (rustToLowercase lower ci cased w).isEmpty = w.isEmpty := by
  cases w with
  | nil => rfl
  | cons c rest =>
    rw [rustToLowercase, toLowercaseAux]
    have hblk : lowerBlock lower ci cased [] c rest ≠ [] := by
      rw [lowerBlock]
      by_cases hs : c = 'Σ'
      · rw [if_pos hs]
        split <;> simp
      · rw [if_neg hs]
        exact hne c
    cases hb : lowerBlock lower ci cased [] c rest with
    | nil => exact absurd hb hblk
    | cons x xs => simp

/-- C10: `count_syllables` (`src/ashpaper/src/parser.rs`) is invariant
under lowercasing its input by `str::to_lowercase`, modelled with its
context-sensitive `Final_Sigma` handling of `'Σ'` by `rustToLowercase`.
The hypotheses are facts of the Unicode tables the standard library
consults: `char::to_lowercase` fixes the space character, never produces
a space, an empty expansion or `'Σ'`, is idempotent character by
character, fixes `'σ'` and `'ς'`, and the space character is neither
`Case_Ignorable` nor `Cased`. -/
theorem count_syllables_lowercase_invariant
    (dict : List Char → Option Nat) (lower : Char → List Char)
    (ci cased : Char → Bool)
    (hspace : lower ' ' = [' '])
    (hnospace : ∀ c, c ≠ ' ' → ∀ x ∈ lower c, x ≠ ' ')
    (hne : ∀ c, lower c ≠ [])
    (hidem : ∀ c, toLowerStr lower (lower c) = lower c)
    (hnosig : ∀ c, 'Σ' ∉ lower c)
    (hlossig : lower 'σ' = ['σ']) (hlofin : lower 'ς' = ['ς'])
    (hci : ci ' ' = false) (hcased : cased ' ' = false)
    (s : List Char) :
    count_syllables dict lower ci cased s =
      count_syllables dict lower ci cased
        (rustToLowercase lower ci cased s) := by
  rw [count_syllables, count_syllables,
    splitOnChar_rustToLowercase lower ci cased hspace hnospace hci hcased s]
  rw [List.filter_map]
  have hpred : ((fun s => !s.isEmpty) ∘ rustToLowercase lower ci cased) =
      fun s : List Char => !s.isEmpty := by
    funext w
    simp [Function.comp, rustToLowercase_isEmpty lower ci cased hne w]
  rw [hpred, List.map_map]
  congr 1
  apply List.map_congr_left
  intro w _
  simp only [Function.comp]
  rw [rustToLowercase_idem lower ci cased hnosig hidem hlossig hlofin w]

/-- A per-character lowercase table for the witness: lowercases `'A'`
and maps `'Σ'` to `'σ'` as `char::to_lowercase` does (the `'ς'` form is
produced only by the `Final_Sigma` branch of `str::to_lowercase`). -/
def wLowerChar (c : Char) : Char :=
  if c = 'A' then 'a' else if c = 'Σ' then 'σ' else c

/-- The witness lowercase expansion. -/
def wLower (c : Char) : List Char := [wLowerChar c]

/-- The witness `Case_Ignorable` table: no character is case-ignorable. -/
def wCi : Char → Bool := fun _ => false

/-- The witness `Cased` table. -/
def wCased (c : Char) : Bool :=
  c == 'a' || c == 'A' || c == 'σ' || c == 'ς' || c == 'Σ'

/-- Closed witness for `count_syllables_lowercase_invariant`, on the
input `"AΣ ΣA"`: the first `'Σ'` is word-final and lowercases to `'ς'`,
the second does not and lowercases to `'σ'`, exercising the
context-sensitive branch in both directions. -/
theorem count_syllables_lowercase_invariant_witness :
    count_syllables (fun _ => none) wLower wCi wCased
        ['A', 'Σ', ' ', 'Σ', 'A'] =
      count_syllables (fun _ => none) wLower wCi wCased
        (rustToLowercase wLower wCi wCased ['A', 'Σ', ' ', 'Σ', 'A']) ∧
    rustToLowercase wLower wCi wCased ['A', 'Σ', ' ', 'Σ', 'A'] =
      ['a', 'ς', ' ', 'σ', 'a'] :=
  ⟨count_syllables_lowercase_invariant (fun _ => none) wLower wCi wCased
      (by decide)
      (fun c hc x hx => by
        rw [wLower, List.mem_singleton] at hx
        subst hx
        by_cases h1 : c = 'A'
        · subst h1; decide
        · by_cases h2 : c = 'Σ'
          · subst h2; decide
          · rw [wLowerChar, if_neg h1, if_neg h2]
            exact hc)
      (fun c => by rw [wLower]; exact List.cons_ne_nil _ _)
      (fun c => by
        by_cases h1 : c = 'A'
        · subst h1; decide
        · by_cases h2 : c = 'Σ'
          · subst h2; decide
          · simp [toLowerStr, wLower, wLowerChar, h1, h2])
      (fun c => by
        by_cases h1 : c = 'A'
        · subst h1; decide
        · by_cases h2 : c = 'Σ'
          · subst h2; decide
          · rw [wLower, wLowerChar, if_neg h1, if_neg h2,
              List.mem_singleton]
            exact fun h => h2 h.symm)
      (by decide) (by decide) (by decide) (by decide)
      ['A', 'Σ', ' ', 'Σ', 'A'],
    by decide⟩

end AshPaper
